import Mathlib

/-!
Verification of the `PreProcessor` component of
`src/haystack/preprocessor/preprocessor.py`.

Python strings are modelled as `List Char`; the Python builtins used by the
source (`str.splitlines`, `str.strip`, `str.split`, `str.replace`,
`"\n".join`, `re.sub(r"\n\n+", "\n\n", _)`) and the `more_itertools.windowed`
helper are translated below, followed by the methods of `PreProcessor`
themselves (`clean`, `split`, `_find_and_remove_header_footer`, `_ngram`,
`_allngram`, `_find_longest_common_ngram`).
-/

/-- Python `str.isspace` for the characters relevant here: the ASCII
whitespace characters, the C1/Unicode space and separator characters that
CPython treats as whitespace. -/
def pyIsSpace (c : Char) : Bool :=
  c = ' ' || c = '\t' || c = '\n' || c.toNat = 0x0b || c.toNat = 0x0c ||
  c = '\r' || c.toNat = 0x1c || c.toNat = 0x1d || c.toNat = 0x1e ||
  c.toNat = 0x1f || c.toNat = 0x85 || c.toNat = 0xa0 || c.toNat = 0x1680 ||
  (0x2000 ≤ c.toNat && c.toNat ≤ 0x200a) ||
  c.toNat = 0x2028 || c.toNat = 0x2029 || c.toNat = 0x202f ||
  c.toNat = 0x205f || c.toNat = 0x3000

/-- The line-boundary characters of Python `str.splitlines`
(`\r\n` is additionally treated as a single boundary). -/
def isLineBoundary (c : Char) : Bool :=
  c = '\n' || c = '\r' || c.toNat = 0x0b || c.toNat = 0x0c ||
  c.toNat = 0x1c || c.toNat = 0x1d || c.toNat = 0x1e || c.toNat = 0x85 ||
  c.toNat = 0x2028 || c.toNat = 0x2029

/-- Prepend a character to the first piece of a split result, as the
splitting scans do when the current character is not a separator. -/
def consHead (c : Char) : List (List Char) → List (List Char)
  | [] => [[c]]
  | l :: ls => (c :: l) :: ls

/-- Python `str.splitlines()` (keepends = False): a boundary character ends
the current line, `"\r\n"` counts as a single boundary, and a trailing
boundary does not open a new line. -/
def pySplitlines : List Char → List (List Char)
  | [] => []
  | [c] => if isLineBoundary c then [[]] else [[c]]
  | c :: d :: rest =>
    if c = '\r' && d = '\n' then [] :: pySplitlines rest
    else if isLineBoundary c then [] :: pySplitlines (d :: rest)
    else consHead c (pySplitlines (d :: rest))

/-- Python `str.strip()`: drop leading and trailing whitespace. -/
def pyStrip (l : List Char) : List Char :=
  ((l.dropWhile pyIsSpace).reverse.dropWhile pyIsSpace).reverse

/-- `"\n".join(lines)`. -/
def joinNL (lines : List (List Char)) : List Char :=
  List.intercalate ['\n'] lines

/-- `" ".join(parts)`. -/
def joinSpace (parts : List (List Char)) : List Char :=
  List.intercalate [' '] parts

/-- Python `text.split(" ")`: split on every single space, keeping empty
pieces; `"".split(" ") = [""]`. -/
def splitOnSpace : List Char → List (List Char)
  | [] => [[]]
  | ' ' :: rest => [] :: splitOnSpace rest
  | c :: rest =>
    match splitOnSpace rest with
    | [] => [[c]]
    | l :: ls => (c :: l) :: ls

/-- Python `text.split("\f")` (form-feed pages). -/
def splitFF : List Char → List (List Char)
  | [] => [[]]
  | '\x0c' :: rest => [] :: splitFF rest
  | c :: rest =>
    match splitFF rest with
    | [] => [[c]]
    | l :: ls => (c :: l) :: ls

/-- Python `text.split("\n\n")` (passages). -/
def splitDoubleNL : List Char → List (List Char)
  | '\n' :: '\n' :: rest => [] :: splitDoubleNL rest
  | c :: rest =>
    match splitDoubleNL rest with
    | [] => [[c]]
    | l :: ls => (c :: l) :: ls
  | [] => [[]]

/-- Worker for `re.sub(r"\n\n+", "\n\n", text)`: when the flag is `true` we
are inside a newline run whose first two newlines were already emitted, so
further newlines of the run are dropped. -/
def collapseGo : Bool → List Char → List Char
  | _, [] => []
  | true, '\n' :: rest => collapseGo true rest
  | true, c :: rest => c :: collapseGo false rest
  | false, '\n' :: '\n' :: rest => '\n' :: '\n' :: collapseGo true rest
  | false, c :: rest => c :: collapseGo false rest

/-- `re.sub(r"\n\n+", "\n\n", text)`: every maximal run of two or more
newlines is replaced by exactly two newlines. -/
def collapseEmptyLines (s : List Char) : List Char :=
  collapseGo false s

/-- Worker for Python `s.replace(pat, rep)` with non-empty `pat`: `skip`
counts characters of a just-replaced match that still have to be consumed. -/
def replGo (pat rep : List Char) : Nat → List Char → List Char
  | _ + 1, [] => []
  | skip + 1, _ :: rest => replGo pat rep skip rest
  | 0, [] => []
  | 0, c :: rest =>
    if pat.isPrefixOf (c :: rest) then
      rep ++ replGo pat rep (pat.length - 1) rest
    else
      c :: replGo pat rep 0 rest

/-- Python `s.replace(pat, rep)`: leftmost, non-overlapping occurrences.
For empty `pat`, Python inserts `rep` before every character and at the end
(unreachable in this program: the replaced header/footer is never empty). -/
def pyReplace (s pat rep : List Char) : List Char :=
  if pat = [] then rep ++ s.flatMap (fun c => c :: rep)
  else replGo pat rep 0 s

/-- Python `p[:n]` for `n ≥ 0`. -/
def pyTakeFirst (n : Nat) (l : List Char) : List Char :=
  l.take n

/-- Python `p[-n:]`: the last `n` characters, except `p[-0:]` is all of `p`. -/
def pyTakeLast (n : Nat) (l : List Char) : List Char :=
  if n = 0 then l else l.drop (l.length - n)

/-- Python `pages[a : -b]` for `a, b ≥ 0`: drop the first `a` and last `b`
elements; `b = 0` means stop index `0`, hence the empty list. -/
def pySliceDropEnds (a b : Nat) (l : List (List Char)) : List (List Char) :=
  if b = 0 then [] else (l.take (l.length - b)).drop a

/-- A metadata value stored in a document's `meta` dict. -/
inductive MetaVal : Type
  | int : Int → MetaVal
  | str : List Char → MetaVal
deriving DecidableEq

/-- A Python dict used as document metadata: an insertion-ordered
association list with unique keys. -/
abbrev Meta : Type := List (String × MetaVal)

/-- A document record: `text` is always present, `meta` may be absent, and
`extra` stands for all further caller-defined fields, which the
transformations must carry through unchanged. -/
structure Doc (α : Type) : Type where
  text : List Char
  meta : Option Meta
  extra : α
deriving DecidableEq

/-- The construction-time configuration of `PreProcessor`.  `split_by` is
`none` for Python `None` (`some ""` is likewise falsy for `if not
self.split_by`); `split_stride = some 0` is falsy for `if
self.split_stride`. -/
structure Config : Type where
  clean_whitespace : Bool
  clean_header_footer : Bool
  clean_empty_lines : Bool
  split_by : Option String
  split_size : Nat
  split_stride : Option Nat
  split_mid_sentence : Bool

/-- Python `d[k] = v` on a dict: overwrite in place if the key exists,
otherwise append at the end. -/
def metaSet (m : Meta) (k : String) (v : MetaVal) : Meta :=
  if m.any (fun p => p.1 = k) then
    m.map (fun p => if p.1 = k then (k, v) else p)
  else
    m ++ [(k, v)]

/-- Python `d.get(k)` on a dict. -/
def metaLookup (m : Meta) (k : String) : Option MetaVal :=
  (m.find? (fun p => p.1 = k)).map (fun p => p.2)

/-- `_ngram` pre-pass: `seq.replace("\n", " \n")`. -/
def expandNL (s : List Char) : List Char :=
  s.flatMap (fun c => if c = '\n' then [' ', '\n'] else [c])

/-- `_ngram` pre-pass: `seq.replace("\t", " \t")`. -/
def expandTab (s : List Char) : List Char :=
  s.flatMap (fun c => if c = '\t' then [' ', '\t'] else [c])

/-- `_ngram` post-pass: `.replace(" \n", "\n")`. -/
def contractNL : List Char → List Char
  | ' ' :: '\n' :: rest => '\n' :: contractNL rest
  | c :: rest => c :: contractNL rest
  | [] => []

/-- `_ngram` post-pass: `.replace(" \t", "\t")`. -/
def contractTab : List Char → List Char
  | ' ' :: '\t' :: rest => '\t' :: contractTab rest
  | c :: rest => c :: contractTab rest
  | [] => []

/-- The token list of `_ngram`:
`seq.replace("\n", " \n").replace("\t", " \t").split(" ")`. -/
def pyWords (seq : List Char) : List (List Char) :=
  splitOnSpace (expandTab (expandNL seq))

/-- The ngram of `n` tokens starting at token index `i`:
`" ".join(words[i : i + n]).replace(" \n", "\n").replace(" \t", "\t")`. -/
def ngramAt (seq : List Char) (i n : Nat) : List Char :=
  contractTab (contractNL (joinSpace (((pyWords seq).drop i).take n)))

/-- `PreProcessor._ngram(seq, n)` as a list: one ngram for each
`i in range(0, len(words) - n + 1)`. -/
def ngramList (seq : List Char) (n : Nat) : List (List Char) :=
  let words := pyWords seq
  if n ≤ words.length then
    (List.range (words.length - n + 1)).map (fun i => ngramAt seq i n)
  else
    []

/-- `PreProcessor._allngram(seq, min_ngram, max_ngram)` as a list (the
Python `set` only matters through membership and maximum selection):
`lengths = range(min_ngram, max_ngram) if max_ngram else range(min_ngram,
len(seq))`, where `max_ngram` of `None` or `0` is falsy. -/
def allngramL (seq : List Char) (minN : Nat) (maxN : Option Nat) :
    List (List Char) :=
  let lengths := match maxN with
    | some m => if m = 0 then List.range' minN (seq.length - minN)
                else List.range' minN (m - minN)
    | none => List.range' minN (seq.length - minN)
  lengths.flatMap (fun n => ngramList seq n)

/-- `max(intersection, key=len)` with the `try/except ValueError` of the
source folded in: on the empty collection the source catches the error and
uses `""`, which is exactly the fold's initial value. -/
def maxByLen (l : List (List Char)) : List Char :=
  l.foldl (fun b x => if b.length < x.length then x else b) []

/-- The intersection of the per-sequence ngram sets:
`reduce(set.intersection, map(partial(_allngram, ...), sequences))`,
computed over the non-empty sequences. -/
def interOf (seqs : List (List Char)) (maxN : Option Nat) (minN : Nat) :
    List (List Char) :=
  match seqs.filter (fun s => s ≠ []) with
  | [] => []
  | s :: rest =>
    rest.foldl (fun acc t => acc.filter (fun g => g ∈ allngramL t minN maxN))
      (allngramL s minN maxN)

/-- `PreProcessor._find_longest_common_ngram(sequences, max_ngram,
min_ngram)`. -/
def flcnWith (seqs : List (List Char)) (maxN : Option Nat) (minN : Nat) :
    Option (List Char) :=
  if seqs.filter (fun s => s ≠ []) = [] then none
  else
    let longest := maxByLen (interOf seqs maxN minN)
    if pyStrip longest = [] then none else some longest

/-- `_find_longest_common_ngram` at its default arguments
(`max_ngram = 30`, `min_ngram = 3`). -/
def flcn (seqs : List (List Char)) : Option (List Char) :=
  flcnWith seqs (some 30) 3

/-- `PreProcessor._find_and_remove_header_footer(document, n_chars,
n_first_pages_to_ignore, n_last_pages_to_ignore)`: returns the cleaned
pages and the found header and footer. -/
def findAndRemoveHeaderFooter (d : Doc α) (n_chars nFirst nLast : Nat) :
    List (List Char) × Option (List Char) × Option (List Char) :=
  let pages := splitFF d.text
  let startOfPages :=
    (pySliceDropEnds nFirst nLast pages).map (pyTakeFirst n_chars)
  let foundHeader := flcn startOfPages
  let pages := match foundHeader with
    | some h => pages.map (fun page => pyReplace page h [])
    | none => pages
  let endOfPages :=
    (pySliceDropEnds nFirst nLast pages).map (pyTakeLast n_chars)
  let foundFooter := flcn endOfPages
  let pages := match foundFooter with
    | some f => pages.map (fun page => pyReplace page f [])
    | none => pages
  (pages, foundHeader, foundFooter)

/-- The whitespace-normalization step of `clean`: split into lines with
`splitlines()`, `strip()` each line, rejoin with `"\n"`. -/
def cleanWhitespaceStep (text : List Char) : List Char :=
  joinNL ((pySplitlines text).map pyStrip)

/-- `PreProcessor.clean(document)`.  Note: as in the source, when
`clean_header_footer` is set the cleaned pages returned by
`_find_and_remove_header_footer` are computed and then only logged — the
binding is unused and the result is never written back into the document. -/
def clean (cfg : Config) (d : Doc α) : Doc α :=
  let text := d.text
  let _headerFooter :=
    if cfg.clean_header_footer then
      some (findAndRemoveHeaderFooter d 300 1 1)
    else none
  let text := if cfg.clean_whitespace then cleanWhitespaceStep text else text
  let text := if cfg.clean_empty_lines then collapseEmptyLines text else text
  { d with text := text }

/-- A Python exception raised by `split`.  The source raises
`NotImplementedError` at both error sites, once with a message and once
bare. -/
inductive PyErr : Type
  | notImplementedError : Option String → PyErr
deriving DecidableEq

/-- The message of the raise in the mid-sentence branch of `split`. -/
def niMsg : String :=
  "PreProcessor only supports \x27passage\x27 or \x27sentence\x27 split_by options."

/-- Append to a `deque(maxlen=n)`: keep the last `n` elements. -/
def pushMax (n : Nat) (w : List α) (x : α) : List α :=
  let w := w ++ [x]
  w.drop (w.length - n)

/-- The loop state of `more_itertools.windowed`: the deque, the countdown
until the next yield and the windows yielded so far. -/
structure WinState (α : Type) : Type where
  window : List α
  cnt : Nat
  acc : List (List α)

/-- One iteration of the `windowed` loop. -/
def windowedStep (n step : Nat) (s : WinState α) (x : α) : WinState α :=
  let w := pushMax n s.window x
  let c := s.cnt - 1
  if c = 0 then ⟨w, step, s.acc ++ [w]⟩ else ⟨w, c, s.acc⟩

/-- `more_itertools.windowed(seq, n, fillvalue=None, step)` for `n ≥ 1`,
`step ≥ 1` (the source only calls it in that range; Python raises
`ValueError` otherwise).  Real elements are wrapped in `some`, the `None`
fill value is `none`. -/
def windowed (seq : List α) (n step : Nat) : List (List (Option α)) :=
  if n = 0 then [[]]
  else
    let s := seq.foldl (windowedStep n step) ⟨[], n, []⟩
    let acc := s.acc.map (fun w => w.map some)
    let size := s.window.length
    if size = 0 then acc
    else if size < n then
      acc ++ [s.window.map some ++ List.replicate (n - size) none]
    else if 0 < s.cnt ∧ s.cnt < min step n then
      acc ++ [(s.window.map some).drop s.cnt ++ List.replicate s.cnt none]
    else acc

/-- The window step used by `split`: `split_size - split_stride` when the
stride is truthy, else `split_size`. -/
def stepOf (cfg : Config) : Nat :=
  match cfg.split_stride with
  | some s => if s = 0 then cfg.split_size else cfg.split_size - s
  | none => cfg.split_size

/-- The mid-sentence branch of `split` after slicing: window the slices and
join each window's truthy entries with a single space
(`" ".join([t for t in seg if t])`). -/
def midTexts (cfg : Config) (slices : List (List Char)) :
    List (List Char) :=
  (windowed slices cfg.split_size (stepOf cfg)).map
    (fun seg => joinSpace ((seg.filterMap id).filter (fun t => t ≠ [])))

/-- The sentence-accumulation loop of `split` with mid-sentence splitting
disabled: `cur` and `cnt` are `current_slice` and `word_count`; a sentence
is appended to the buffer, its space-split token count added, and the
buffer is emitted and reset as soon as the count exceeds `size`.  The
final partial buffer is never emitted. -/
def wordNoMidGo (size : Nat) :
    List (List Char) → List Char → Nat → List (List Char)
  | [], _, _ => []
  | sen :: rest, cur, cnt =>
    let cur' := cur ++ sen
    let cnt' := cnt + (splitOnSpace sen).length
    if size < cnt' then cur' :: wordNoMidGo size rest [] 0
    else wordNoMidGo size rest cur' cnt'

/-- The `text_splits` computed by `split` for a truthy unit `u`, or the
raised exception.  `tok` is the external `nltk.tokenize.sent_tokenize`
capability. -/
def textSplitsOf (cfg : Config) (tok : List Char → List (List Char))
    (text : List Char) (u : String) : Except PyErr (List (List Char)) :=
  if cfg.split_mid_sentence then
    if u = "passage" then .ok (midTexts cfg (splitDoubleNL text))
    else if u = "sentence" then .ok (midTexts cfg (tok text))
    else if u = "word" then .ok (midTexts cfg (splitOnSpace text))
    else .error (.notImplementedError (some niMsg))
  else
    if u = "word" then .ok (wordNoMidGo cfg.split_size (tok text) [] 0)
    else .error (.notImplementedError none)

/-- The document-building loop of `split`: one deep copy of the input per
text, with `text` replaced, `meta` created if absent, and
`meta["_split_id"]` set to the zero-based emission index. -/
def mkSplitDocs (d : Doc α) (texts : List (List Char)) : List (Doc α) :=
  texts.enum.map (fun p =>
    { d with
      text := p.2
      meta := some (metaSet (d.meta.getD []) "_split_id" (.int p.1)) })

/-- `PreProcessor.split(document)`. -/
def split (cfg : Config) (tok : List Char → List (List Char)) (d : Doc α) :
    Except PyErr (List (Doc α)) :=
  match cfg.split_by with
  | none => .ok [d]
  | some u =>
    if u = "" then .ok [d]
    else (textSplitsOf cfg tok d.text u).map (mkSplitDocs d)

/-- `true` exactly on `Except.ok`. -/
def exceptIsOk : Except ε α → Bool
  | .ok _ => true
  | .error _ => false

/-- Python `text.split("\n")`: split on the newline character only.  Used
by the comparison definition for claim C8. -/
def splitOnNL : List Char → List (List Char)
  | [] => [[]]
  | '\n' :: rest => [] :: splitOnNL rest
  | c :: rest =>
    match splitOnNL rest with
    | [] => [[c]]
    | l :: ls => (c :: l) :: ls

/-- Modelled from the words of claim C8, for comparison with
`cleanWhitespaceStep`: split the text into lines on the newline character
only, strip each line, rejoin with newline. -/
def cleanWhitespaceNewlineOnly (text : List Char) : List Char :=
  joinNL ((splitOnNL text).map pyStrip)

/-- A four-page document whose two middle pages share the non-blank header
`"Common Header Line"`. -/
def docHdr : Doc Unit :=
  ⟨"p0\x0cCommon Header Line one\x0cCommon Header Line two\x0cp3".toList,
    none, ()⟩

/-- The common header of `docHdr`. -/
def hdrStr : List Char := "Common Header Line".toList

/-- Configuration with only header/footer cleaning enabled. -/
def cfgHdrOnly : Config := ⟨false, true, false, some "passage", 10, none, true⟩

/-- C1: `_find_and_remove_header_footer` does find the common header of
`docHdr` and does compute pages with it removed, but `clean` discards that
result: the returned document is unchanged and removing the header from its
text would still change it, contradicting the claim that `clean` removes
every occurrence of the found header. -/
theorem c1_header_found_but_not_removed :
    (findAndRemoveHeaderFooter docHdr 300 1 1).2.1 = some hdrStr ∧
    (findAndRemoveHeaderFooter docHdr 300 1 1).1 =
      ["p0".toList, " one".toList, " two".toList, "p3".toList] ∧
    clean cfgHdrOnly docHdr = docHdr ∧
    pyReplace docHdr.text hdrStr [] ≠ docHdr.text := by
  decide

/-- The C5 scenario configuration: `split_by="word"`, `split_size=2`, no
stride, mid-sentence splitting enabled. -/
def cfgScenario : Config := ⟨true, false, true, some "word", 2, none, true⟩

/-- The C5 scenario document. -/
def docScenario : Doc Unit := ⟨"A B C D E F".toList, none, ()⟩

/-- C5: on `"A B C D E F"` with `split_by="word"`, `split_size=2`, no
stride, `split` returns exactly the three sub-documents `"A B"`, `"C D"`,
`"E F"` with `meta["_split_id"]` equal to 0, 1, 2. -/
theorem c5_word_split_scenario (tok : List Char → List (List Char)) :
    split cfgScenario tok docScenario =
      .ok [⟨"A B".toList, some [("_split_id", .int 0)], ()⟩,
           ⟨"C D".toList, some [("_split_id", .int 1)], ()⟩,
           ⟨"E F".toList, some [("_split_id", .int 2)], ()⟩] := by
  rfl

/-- An unsupported split unit with mid-sentence splitting enabled. -/
def cfgBadUnit : Config := ⟨true, false, true, some "chapter", 10, none, true⟩

/-- A supported but non-word unit with mid-sentence splitting disabled. -/
def cfgNoMidPassage : Config :=
  ⟨true, false, true, some "passage", 10, none, false⟩

/-- The empty sentence tokenizer, for configurations that never use it. -/
def tokNone : List Char → List (List Char) := fun _ => []

/-- The empty document. -/
def docEmpty : Doc Unit := ⟨[], none, ()⟩

/-- C4 counterexample: both error sites of `split` raise the same Python
exception class, `NotImplementedError` — the unsupported-unit case with an
explanatory message and the mid-sentence-disabled case bare — so the
claimed contrast between a distinct `InvalidConfiguration` error for the
first case and a `NotImplemented` error for the second does not hold in
the code. -/
theorem c4_both_error_sites_raise_not_implemented :
    split cfgBadUnit tokNone docEmpty =
      .error (.notImplementedError (some niMsg)) ∧
    split cfgNoMidPassage tokNone docEmpty =
      .error (.notImplementedError none) := by
  exact ⟨rfl, rfl⟩

/-- Configuration with whitespace and empty-line cleaning enabled. -/
def cfgWsEl : Config := ⟨true, false, true, none, 10, none, true⟩

/-- The document `"a\n\n"` on which `clean` is not idempotent. -/
def docTrailingBlank : Doc Unit := ⟨"a\n\n".toList, none, ()⟩

/-- C6 counterexample: with header/footer removal disabled and both
whitespace and empty-line cleaning enabled, `clean` is not idempotent:
`"a\n\n"` cleans to `"a\n"`, and cleaning again yields `"a"` — each pass
drops the trailing blank line produced by rejoining stripped lines. -/
theorem c6_clean_not_idempotent :
    (clean cfgWsEl docTrailingBlank).text = "a\n".toList ∧
    (clean cfgWsEl (clean cfgWsEl docTrailingBlank)).text = "a".toList ∧
    clean cfgWsEl (clean cfgWsEl docTrailingBlank) ≠
      clean cfgWsEl docTrailingBlank := by
  decide

/-- C8 counterexample: the whitespace step splits on all Python line
boundaries, not only on newline (`"a\fb"` becomes `"a\nb"`, while the
claimed split-on-newline-strip-rejoin leaves `"a\fb"` unchanged), and it
can change the number of lines (`"\n"` has one line, its cleaned text `""`
has zero). -/
theorem c8_splits_beyond_newline_and_drops_a_line :
    cleanWhitespaceStep "a\x0cb".toList = "a\nb".toList ∧
    cleanWhitespaceNewlineOnly "a\x0cb".toList = "a\x0cb".toList ∧
    cleanWhitespaceStep "a\x0cb".toList ≠
      cleanWhitespaceNewlineOnly "a\x0cb".toList ∧
    (pySplitlines "\n".toList).length = 1 ∧
    cleanWhitespaceStep "\n".toList = [] ∧
    (pySplitlines (cleanWhitespaceStep "\n".toList)).length = 0 := by
  decide

/-- C2 counterexample: the sequence `" "` has two tokens, so its token-run
of token-length 1 (the empty token) is a required candidate under the
claim with `min_len = 1` and `max_len` unset; but the code bounds the
lengths by `len(seq) = 1` characters, so the candidate set is empty. -/
theorem c2_token_count_bound_fails :
    (pyWords [' ']).length = 2 ∧
    ngramAt [' '] 0 1 = [] ∧
    allngramL [' '] 1 none = [] ∧
    ngramAt [' '] 0 1 ∉ allngramL [' '] 1 none := by
  decide

lemma collapseGo_false_head (s : List Char) :
    (collapseGo false s).head? = s.head? := by
  unfold collapseGo
  split <;> simp_all

lemma collapseGo_true_not_nl (s : List Char) :
    (collapseGo true s).head? ≠ some '\n' := by
  induction s with
  | nil => simp [collapseGo]
  | cons c rest ih =>
    unfold collapseGo
    split <;> simp_all

lemma collapseGo_true_of_head (s : List Char) (h : s.head? ≠ some '\n') :
    collapseGo true s = collapseGo false s := by
  cases s with
  | nil => rfl
  | cons c rest =>
    have hc : c ≠ '\n' := by simpa using h
    conv_lhs => unfold collapseGo
    conv_rhs => unfold collapseGo
    split <;> simp_all

lemma collapseGo_false_cons_ne (c : Char) (rest : List Char)
    (hc : c ≠ '\n') :
    collapseGo false (c :: rest) = c :: collapseGo false rest := by
  conv_lhs => unfold collapseGo
  split <;> simp_all

lemma collapseGo_true_cons_ne (c : Char) (rest : List Char) (hc : c ≠ '\n') :
    collapseGo true (c :: rest) = c :: collapseGo false rest := by
  conv_lhs => unfold collapseGo
  split <;> simp_all

lemma collapseGo_false_nl (rest : List Char)
    (h : rest.head? ≠ some '\n') :
    collapseGo false ('\n' :: rest) = '\n' :: collapseGo false rest := by
  cases rest with
  | nil => rfl
  | cons d r =>
    have hd : d ≠ '\n' := by simpa using h
    conv_lhs => unfold collapseGo
    split
    all_goals try simp_all
    all_goals (rename_i heq; exact heq.1.symm)

/-- One application of the empty-line collapse absorbs a further one. -/
lemma collapseGo_idem (b : Bool) (s : List Char) :
    collapseGo false (collapseGo b s) = collapseGo b s := by
  induction b, s using collapseGo.induct with
  | case1 b => simp [collapseGo]
  | case2 rest ih =>
    show collapseGo false (collapseGo true rest) = collapseGo true rest
    exact ih
  | case3 c rest h ih =>
    have hc : c ≠ '\n' := fun hh => h hh
    rw [collapseGo_true_cons_ne c rest hc, collapseGo_false_cons_ne c _ hc, ih]
  | case4 rest ih =>
    show collapseGo false ('\n' :: '\n' :: collapseGo true rest) =
      '\n' :: '\n' :: collapseGo true rest
    have outer : collapseGo false ('\n' :: '\n' :: collapseGo true rest) =
        '\n' :: '\n' :: collapseGo true (collapseGo true rest) := rfl
    rw [outer, collapseGo_true_of_head _ (collapseGo_true_not_nl rest), ih]
  | case5 c rest h ih =>
    by_cases hc : c = '\n'
    · subst hc
      have hrest : rest.head? ≠ some '\n' := by
        cases rest with
        | nil => simp
        | cons d r =>
          intro hd
          exact h r rfl (by simpa using hd)
      rw [collapseGo_false_nl rest hrest, collapseGo_false_nl _ (by
        rw [collapseGo_false_head]; exact hrest), ih]
    · rw [collapseGo_false_cons_ne c rest hc, collapseGo_false_cons_ne c _ hc,
        ih]

/-- C6 (amended): with header/footer removal disabled, `clean` is
idempotent whenever `clean_whitespace` is disabled (for either value of
`clean_empty_lines`); with `clean_whitespace` enabled a second `clean` can
drop a trailing blank line produced by the rejoin, so idempotence fails in
general. -/
theorem c6_clean_idempotent_without_whitespace {α : Type} (cfg : Config)
    (d : Doc α) (_hh : cfg.clean_header_footer = false)
    (hw : cfg.clean_whitespace = false) :
    clean cfg (clean cfg d) = clean cfg d := by
  cases hE : cfg.clean_empty_lines
  · simp [clean, hw, hE]
  · simp [clean, hw, hE, collapseEmptyLines, collapseGo_idem]

/-- Configuration with only empty-line cleaning enabled. -/
def cfgElOnly : Config := ⟨false, false, true, none, 10, none, true⟩

/-- A document with a run of four newlines. -/
def docRunNl : Doc Unit := ⟨"x\n\n\n\ny".toList, none, ()⟩

theorem c6_clean_idempotent_without_whitespace_witness :
    cfgElOnly.clean_header_footer = false ∧
    cfgElOnly.clean_whitespace = false ∧
    clean cfgElOnly (clean cfgElOnly docRunNl) = clean cfgElOnly docRunNl :=
  ⟨rfl, rfl, c6_clean_idempotent_without_whitespace cfgElOnly docRunNl rfl rfl⟩

lemma mem_ngramList (seq : List Char) (i n : Nat)
    (h : i + n ≤ (pyWords seq).length) :
    ngramAt seq i n ∈ ngramList seq n := by
  show ngramAt seq i n ∈
    (if n ≤ (pyWords seq).length then
      (List.range ((pyWords seq).length - n + 1)).map (fun j => ngramAt seq j n)
    else [])
  rw [if_pos (by omega)]
  exact List.mem_map.mpr ⟨i, List.mem_range.mpr (by omega), rfl⟩

/-- C2 (amended): for every sequence the candidate set of `_allngram`
contains every contiguous token-run whose token-length lies in
`[min_len, max_len)`; when `max_len` is unset, the candidate token-lengths
range over `[min_len, len(seq))` where `len(seq)` is the sequence's
character count — not its token count. -/
theorem c2_allngram_contains_ranged_ngrams (seq : List Char)
    (minN i n : Nat) :
    (∀ m, minN ≤ n → n < m → i + n ≤ (pyWords seq).length →
      ngramAt seq i n ∈ allngramL seq minN (some m)) ∧
    (minN ≤ n → n < seq.length → i + n ≤ (pyWords seq).length →
      ngramAt seq i n ∈ allngramL seq minN none) := by
  constructor
  · intro m h1 h2 h3
    have hm : ¬ m = 0 := by omega
    show ngramAt seq i n ∈
      (if m = 0 then List.range' minN (seq.length - minN)
       else List.range' minN (m - minN)).flatMap (fun k => ngramList seq k)
    rw [if_neg hm]
    exact List.mem_flatMap.mpr
      ⟨n, List.mem_range'_1.mpr ⟨h1, by omega⟩, mem_ngramList seq i n h3⟩
  · intro h1 h2 h3
    show ngramAt seq i n ∈
      (List.range' minN (seq.length - minN)).flatMap (fun k => ngramList seq k)
    exact List.mem_flatMap.mpr
      ⟨n, List.mem_range'_1.mpr ⟨h1, by omega⟩, mem_ngramList seq i n h3⟩

theorem c2_allngram_contains_ranged_ngrams_witness :
    ngramAt "a b c d".toList 0 3 ∈ allngramL "a b c d".toList 3 (some 30) ∧
    ngramAt "a b c".toList 0 3 ∈ allngramL "a b c".toList 3 none :=
  ⟨(c2_allngram_contains_ranged_ngrams "a b c d".toList 3 0 3).1 30
      (by decide) (by decide) (by decide),
    (c2_allngram_contains_ranged_ngrams "a b c".toList 3 0 3).2
      (by decide) (by decide) (by decide)⟩
def boundaryFree (l : List Char) : Prop := ∀ c ∈ l, isLineBoundary c = false

lemma pySplitlines_cons_free (c : Char) (rest : List Char)
    (hc : isLineBoundary c = false) :
    pySplitlines (c :: rest) = consHead c (pySplitlines rest) := by
  have hr : ¬ (c = '\r') := by
    intro h
    subst h
    simp [isLineBoundary] at hc
  cases rest with
  | nil => simp [pySplitlines, hc, consHead]
  | cons d r => simp [pySplitlines, hc, hr]

lemma pySplitlines_nl (rest : List Char) :
    pySplitlines ('\n' :: rest) = [] :: pySplitlines rest := by
  cases rest with
  | nil => simp [pySplitlines, isLineBoundary]
  | cons d r => simp [pySplitlines, isLineBoundary]

lemma mem_consHead (l : List Char) (c : Char) (ls : List (List Char))
    (hl : l ∈ consHead c ls) :
    (ls = [] ∧ l = [c]) ∨ (∃ l0 ls0, ls = l0 :: ls0 ∧ (l = c :: l0 ∨ l ∈ ls0)) := by
  cases ls with
  | nil =>
    left
    simp [consHead] at hl
    exact ⟨rfl, hl⟩
  | cons l0 ls0 =>
    right
    refine ⟨l0, ls0, rfl, ?_⟩
    simp [consHead] at hl
    rcases hl with h | h
    · exact Or.inl h
    · exact Or.inr h

lemma pySplitlines_no_boundary (t : List Char) :
    ∀ l ∈ pySplitlines t, boundaryFree l := by
  induction t using pySplitlines.induct with
  | case1 =>
    intro l hl
    simp [pySplitlines] at hl
  | case2 c hb =>
    intro l hl
    simp [pySplitlines, hb] at hl
    subst hl
    intro d hd
    simp at hd
  | case3 c hb =>
    intro l hl
    simp [pySplitlines, hb] at hl
    subst hl
    intro d hd
    rcases List.mem_singleton.mp hd with rfl
    simpa using hb
  | case4 c d rest hrn ih =>
    intro l hl
    rw [show pySplitlines (c :: d :: rest) = [] :: pySplitlines rest by
      simp [pySplitlines, hrn]] at hl
    rcases List.mem_cons.mp hl with rfl | h
    · intro e he; simp at he
    · exact ih l h
  | case5 c d rest hrn hb ih =>
    intro l hl
    rw [show pySplitlines (c :: d :: rest) = [] :: pySplitlines (d :: rest) by
      simp [pySplitlines, hrn, hb]] at hl
    rcases List.mem_cons.mp hl with rfl | h
    · intro e he; simp at he
    · exact ih l h
  | case6 c d rest hrn hb ih =>
    intro l hl
    rw [show pySplitlines (c :: d :: rest) =
        consHead c (pySplitlines (d :: rest)) by
      simp [pySplitlines, hrn, hb]] at hl
    rcases mem_consHead l c _ hl with ⟨hnil, rfl⟩ | ⟨l0, ls0, hps, hcase⟩
    · intro e he
      rcases List.mem_singleton.mp he with rfl
      simpa using hb
    · rcases hcase with rfl | h
      · intro e he
        rcases List.mem_cons.mp he with rfl | he2
        · simpa using hb
        · exact ih l0 (by rw [hps]; exact List.mem_cons_self _ _) e he2
      · exact ih l (by rw [hps]; exact List.mem_cons_of_mem _ h)

lemma pySplitlines_free_ne (l : List Char) (hf : boundaryFree l)
    (hne : l ≠ []) : pySplitlines l = [l] := by
  induction l with
  | nil => exact absurd rfl hne
  | cons c rest ih =>
    have hc : isLineBoundary c = false := hf c (List.mem_cons_self _ _)
    cases rest with
    | nil =>
      simp [pySplitlines, hc]
    | cons d r =>
      rw [pySplitlines_cons_free c _ hc,
        ih (fun e he => hf e (List.mem_cons_of_mem _ he)) (by simp)]
      rfl

lemma pySplitlines_append_nl (l s : List Char) (hf : boundaryFree l) :
    pySplitlines (l ++ '\n' :: s) = l :: pySplitlines s := by
  induction l with
  | nil =>
    simpa using pySplitlines_nl s
  | cons c l2 ih =>
    have hc : isLineBoundary c = false := hf c (List.mem_cons_self _ _)
    rw [List.cons_append, pySplitlines_cons_free c _ hc,
      ih (fun e he => hf e (List.mem_cons_of_mem _ he))]
    rfl

lemma joinNL_singleton (a : List Char) : joinNL [a] = a := by
  simp [joinNL, List.intercalate]

lemma joinNL_cons_cons (a b : List Char) (t : List (List Char)) :
    joinNL (a :: b :: t) = a ++ '\n' :: joinNL (b :: t) := by
  simp [joinNL, List.intercalate]

lemma pySplitlines_joinNL (lines : List (List Char)) (hne : lines ≠ [])
    (hf : ∀ l ∈ lines, boundaryFree l)
    (hlast : lines.getLast? ≠ some []) :
    pySplitlines (joinNL lines) = lines := by
  induction lines with
  | nil => exact absurd rfl hne
  | cons l rest ih =>
    cases rest with
    | nil =>
      have hl : l ≠ [] := by
        intro h
        subst h
        simp at hlast
      rw [joinNL_singleton,
        pySplitlines_free_ne l (hf l (List.mem_cons_self _ _)) hl]
    | cons b t =>
      rw [joinNL_cons_cons,
        pySplitlines_append_nl l _ (hf l (List.mem_cons_self _ _)),
        ih (by simp) (fun e he => hf e (List.mem_cons_of_mem _ he))
          (by rwa [List.getLast?_cons_cons] at hlast)]

lemma pyStrip_subset {c : Char} {l : List Char} (hc : c ∈ pyStrip l) :
    c ∈ l := by
  unfold pyStrip at hc
  rw [List.mem_reverse] at hc
  have h1 : c ∈ (l.dropWhile pyIsSpace).reverse :=
    (List.dropWhile_sublist _).mem hc
  rw [List.mem_reverse] at h1
  exact (List.dropWhile_sublist _).mem h1

lemma pyStrip_boundaryFree {l : List Char} (hf : boundaryFree l) :
    boundaryFree (pyStrip l) :=
  fun c hc => hf c (pyStrip_subset hc)

/-- C8 (amended): the whitespace step splits the text at Python universal
line boundaries (not only at newline), strips each line independently and
rejoins with newline; its output lines are exactly the stripped input
lines — so the number of lines is unchanged — whenever the last input line
strips to a non-empty string (otherwise the trailing blank line is dropped
by the rejoin). -/
theorem c8_whitespace_amended (t l : List Char)
    (hlast : (pySplitlines t).getLast? = some l) (hne : pyStrip l ≠ []) :
    pySplitlines (cleanWhitespaceStep t) = (pySplitlines t).map pyStrip ∧
    (pySplitlines (cleanWhitespaceStep t)).length =
      (pySplitlines t).length := by
  have hlines_ne : pySplitlines t ≠ [] := by
    intro h
    rw [h] at hlast
    simp at hlast
  have hmap : pySplitlines (joinNL ((pySplitlines t).map pyStrip)) =
      (pySplitlines t).map pyStrip := by
    apply pySplitlines_joinNL
    · simpa using hlines_ne
    · intro l2 hl2
      rcases List.mem_map.mp hl2 with ⟨l0, hl0, rfl⟩
      exact pyStrip_boundaryFree (pySplitlines_no_boundary t l0 hl0)
    · rw [List.getLast?_map, hlast]
      simpa using hne
  constructor
  · exact hmap
  · rw [show cleanWhitespaceStep t = joinNL ((pySplitlines t).map pyStrip)
      from rfl, hmap, List.length_map]

theorem c8_whitespace_amended_witness :
    (pySplitlines "a\x0cb".toList).getLast? = some ['b'] ∧
    pyStrip ['b'] ≠ [] ∧
    (pySplitlines (cleanWhitespaceStep "a\x0cb".toList)).length =
      (pySplitlines "a\x0cb".toList).length :=
  ⟨by decide, by decide,
    (c8_whitespace_amended "a\x0cb".toList ['b'] (by decide) (by decide)).2⟩

lemma foldl_maxByLen (l : List (List Char)) :
    ∀ b : List Char,
      ((l.foldl (fun b x => if b.length < x.length then x else b) b) = b ∨
       (l.foldl (fun b x => if b.length < x.length then x else b) b) ∈ l) ∧
      b.length ≤
        (l.foldl (fun b x => if b.length < x.length then x else b) b).length ∧
      ∀ x ∈ l, x.length ≤
        (l.foldl (fun b x => if b.length < x.length then x else b) b).length := by
  induction l with
  | nil => intro b; exact ⟨Or.inl rfl, le_refl _, by simp⟩
  | cons y t ih =>
    intro b
    simp only [List.foldl_cons]
    obtain ⟨hmem, hle, hall⟩ := ih (if b.length < y.length then y else b)
    refine ⟨?_, ?_, ?_⟩
    · rcases hmem with h | h
      · rw [h]
        split
        · exact Or.inr (List.mem_cons_self _ _)
        · exact Or.inl rfl
      · exact Or.inr (List.mem_cons_of_mem _ h)
    · refine le_trans ?_ hle
      split <;> omega
    · intro x hx
      rcases List.mem_cons.mp hx with rfl | hx2
      · refine le_trans ?_ hle
        split <;> omega
      · exact hall x hx2

lemma maxByLen_mem_or_nil (l : List (List Char)) :
    maxByLen l = [] ∨ maxByLen l ∈ l :=
  (foldl_maxByLen l []).1

lemma maxByLen_le (l : List (List Char)) :
    ∀ x ∈ l, x.length ≤ (maxByLen l).length :=
  (foldl_maxByLen l []).2.2

/-- C9: `_find_longest_common_ngram` returns `None` exactly in the
degenerate cases — for the empty input list and whenever no non-empty
sequence remains after filtering, for the single-sequence input `["abc"]`,
and exactly when the selected maximal element (the empty string when the
intersection is empty, by the `except ValueError` branch) strips to the
empty string; otherwise it returns a maximal-character-length member of
the intersection of the per-sequence ngram sets. -/
theorem c9_flcn_none_characterization :
    flcn [] = none ∧
    flcn ["abc".toList] = none ∧
    (∀ seqs maxN minN, flcnWith seqs maxN minN = none ↔
      (seqs.filter (fun s => s ≠ []) = [] ∨
        pyStrip (maxByLen (interOf seqs maxN minN)) = [])) ∧
    (∀ seqs maxN minN g, flcnWith seqs maxN minN = some g →
      g ∈ interOf seqs maxN minN ∧
      ∀ x ∈ interOf seqs maxN minN, x.length ≤ g.length) := by
  have hval : ∀ (seqs : List (List Char)) (maxN : Option Nat) (minN : Nat),
      flcnWith seqs maxN minN =
        if seqs.filter (fun s => s ≠ []) = [] then none
        else if pyStrip (maxByLen (interOf seqs maxN minN)) = [] then none
        else some (maxByLen (interOf seqs maxN minN)) := by
    intro seqs maxN minN
    rfl
  refine ⟨by decide, by decide, ?_, ?_⟩
  · intro seqs maxN minN
    rw [hval]
    by_cases h1 : seqs.filter (fun s => s ≠ []) = []
    · rw [if_pos h1]
      exact iff_of_true rfl (Or.inl h1)
    · rw [if_neg h1]
      by_cases h2 : pyStrip (maxByLen (interOf seqs maxN minN)) = []
      · rw [if_pos h2]
        exact iff_of_true rfl (Or.inr h2)
      · rw [if_neg h2]
        exact iff_of_false (by simp) (not_or.mpr ⟨h1, h2⟩)
  · intro seqs maxN minN g hsome
    rw [hval] at hsome
    by_cases h1 : seqs.filter (fun s => s ≠ []) = []
    · rw [if_pos h1] at hsome
      exact absurd hsome (by simp)
    · rw [if_neg h1] at hsome
      by_cases h2 : pyStrip (maxByLen (interOf seqs maxN minN)) = []
      · rw [if_pos h2] at hsome
        exact absurd hsome (by simp)
      · rw [if_neg h2] at hsome
        have hg : g = maxByLen (interOf seqs maxN minN) :=
          (Option.some.inj hsome).symm
        subst hg
        refine ⟨?_, maxByLen_le _⟩
        rcases maxByLen_mem_or_nil (interOf seqs maxN minN) with h | h
        · rw [h] at h2
          exact absurd (show pyStrip ([] : List Char) = [] from rfl) h2
        · exact h

theorem c9_flcn_none_characterization_witness :
    "a b c d".toList ∈
      interOf ["a b c d".toList, "a b c d".toList] (some 30) 3 ∧
    ∀ x ∈ interOf ["a b c d".toList, "a b c d".toList] (some 30) 3,
      x.length ≤ "a b c d".toList.length :=
  c9_flcn_none_characterization.2.2.2
    ["a b c d".toList, "a b c d".toList] (some 30) 3 "a b c d".toList
    (by decide)

/-- C4 (amended): both error sites of `split` raise Python
`NotImplementedError`.  With a truthy `split_by`: in the mid-sentence path
an unsupported unit (not word/sentence/passage) raises
`NotImplementedError` with an explanatory message; with mid-sentence
splitting disabled, any unit other than word raises a bare
`NotImplementedError`.  Both are returned immediately, and (for valid
`split_size`/`split_stride` configurations, where the windowing helper
cannot raise) they are the only error conditions: every other
configuration returns a result. -/
theorem c4_split_error_conditions {α : Type} (cfg : Config)
    (tok : List Char → List (List Char)) (d : Doc α)
    (_hsize : 1 ≤ cfg.split_size)
    (_hstride : ∀ s, cfg.split_stride = some s → s ≠ 0 →
      s < cfg.split_size) :
    ((cfg.split_by = none ∨ cfg.split_by = some "") →
      split cfg tok d = .ok [d]) ∧
    (∀ u, cfg.split_by = some u → u ≠ "" → cfg.split_mid_sentence = true →
      u ≠ "passage" → u ≠ "sentence" → u ≠ "word" →
      split cfg tok d = .error (.notImplementedError (some niMsg))) ∧
    (∀ u, cfg.split_by = some u → u ≠ "" → cfg.split_mid_sentence = false →
      u ≠ "word" → split cfg tok d = .error (.notImplementedError none)) ∧
    (∀ u, cfg.split_by = some u → u ≠ "" → cfg.split_mid_sentence = true →
      (u = "passage" ∨ u = "sentence" ∨ u = "word") →
      exceptIsOk (split cfg tok d) = true) ∧
    (∀ u, cfg.split_by = some u → u ≠ "" → cfg.split_mid_sentence = false →
      u = "word" → exceptIsOk (split cfg tok d) = true) := by
  refine ⟨?_, ?_, ?_, ?_, ?_⟩
  · rintro (h | h) <;> simp [split, h]
  · intro u hu hne hmid h1 h2 h3
    simp [split, hu, hne, textSplitsOf, hmid, h1, h2, h3, Except.map]
  · intro u hu hne hmid h1
    simp [split, hu, hne, textSplitsOf, hmid, h1, Except.map]
  · rintro u hu hne hmid (rfl | rfl | rfl) <;>
      simp [split, hu, hne, textSplitsOf, hmid, Except.map, exceptIsOk]
  · rintro u hu hne hmid rfl
    simp [split, hu, hne, textSplitsOf, hmid, Except.map, exceptIsOk]

theorem c4_split_error_conditions_witness :
    exceptIsOk (split cfgScenario tokNone docEmpty) = true :=
  (c4_split_error_conditions cfgScenario tokNone docEmpty (by decide)
      (fun _ hs _ => nomatch hs)).2.2.2.1
    "word" rfl (by decide) rfl (Or.inr (Or.inr rfl))

lemma metaLookup_cons_of_ne (p : String × MetaVal) (m : Meta) (k : String)
    (hp : ¬ (p.1 = k)) : metaLookup (p :: m) k = metaLookup m k := by
  simp [metaLookup, List.find?_cons_of_neg, hp]

lemma metaLookup_cons_of_eq (p : String × MetaVal) (m : Meta) (k : String)
    (hp : p.1 = k) : metaLookup (p :: m) k = some p.2 := by
  simp [metaLookup, List.find?_cons_of_pos, hp]

lemma metaLookup_map_set (m : Meta) (k : String) (v : MetaVal) :
    metaLookup (m.map (fun p => if p.1 = k then (k, v) else p)) k =
      if m.any (fun p => p.1 = k) then some v else none := by
  induction m with
  | nil => simp [metaLookup]
  | cons p m ih =>
    by_cases hp : p.1 = k
    · simp [metaLookup, List.find?, hp]
    · rw [List.map_cons, if_neg hp, metaLookup_cons_of_ne p _ k hp, ih,
        List.any_cons, show (decide (p.1 = k)) = false from decide_eq_false hp,
        Bool.false_or]

lemma metaLookup_append_single (m : Meta) (k : String) (v : MetaVal)
    (h : m.any (fun p => p.1 = k) = false) :
    metaLookup (m ++ [(k, v)]) k = some v := by
  induction m with
  | nil => simp [metaLookup, List.find?]
  | cons p m ih =>
    rw [List.any_cons, Bool.or_eq_false_iff] at h
    have hp : ¬ (p.1 = k) := of_decide_eq_false h.1
    rw [List.cons_append, metaLookup_cons_of_ne p _ k hp]
    exact ih h.2

lemma metaLookup_map_set_other (m : Meta) (k k2 : String) (v : MetaVal)
    (hne : k2 ≠ k) :
    metaLookup (m.map (fun p => if p.1 = k then (k, v) else p)) k2 =
      metaLookup m k2 := by
  induction m with
  | nil => simp [metaLookup]
  | cons p m ih =>
    by_cases hp : p.1 = k
    · have h1 : ¬ ((k : String) = k2) := fun h => hne h.symm
      have h2 : ¬ (p.1 = k2) := by rw [hp]; exact h1
      rw [List.map_cons, if_pos hp,
        metaLookup_cons_of_ne (k, v) _ k2 h1,
        metaLookup_cons_of_ne p m k2 h2]
      exact ih
    · by_cases hp2 : p.1 = k2
      · rw [List.map_cons, if_neg hp,
          metaLookup_cons_of_eq p _ k2 hp2,
          metaLookup_cons_of_eq p m k2 hp2]
      · rw [List.map_cons, if_neg hp,
          metaLookup_cons_of_ne p _ k2 hp2,
          metaLookup_cons_of_ne p m k2 hp2]
        exact ih

lemma metaLookup_append_single_other (m : Meta) (k k2 : String)
    (v : MetaVal) (hne : k2 ≠ k) :
    metaLookup (m ++ [(k, v)]) k2 = metaLookup m k2 := by
  induction m with
  | nil =>
    have h1 : ¬ ((k : String) = k2) := fun h => hne h.symm
    simp [metaLookup, List.find?, h1]
  | cons p m ih =>
    by_cases hp2 : p.1 = k2
    · rw [List.cons_append, metaLookup_cons_of_eq p _ k2 hp2,
        metaLookup_cons_of_eq p m k2 hp2]
    · rw [List.cons_append, metaLookup_cons_of_ne p _ k2 hp2,
        metaLookup_cons_of_ne p m k2 hp2]
      exact ih

lemma metaLookup_metaSet_self (m : Meta) (k : String) (v : MetaVal) :
    metaLookup (metaSet m k v) k = some v := by
  unfold metaSet
  by_cases h : m.any (fun p => p.1 = k)
  · rw [if_pos h, metaLookup_map_set, if_pos h]
  · rw [if_neg h, metaLookup_append_single m k v (Bool.eq_false_iff.mpr h)]

lemma metaLookup_metaSet_other (m : Meta) (k k2 : String) (v : MetaVal)
    (hne : k2 ≠ k) :
    metaLookup (metaSet m k v) k2 = metaLookup m k2 := by
  unfold metaSet
  by_cases h : m.any (fun p => p.1 = k)
  · rw [if_pos h, metaLookup_map_set_other m k k2 v hne]
  · rw [if_neg h, metaLookup_append_single_other m k k2 v hne]

lemma mkSplitDocs_length {α : Type} (d : Doc α) (texts : List (List Char)) :
    (mkSplitDocs d texts).length = texts.length := by
  simp [mkSplitDocs, List.enum_length]

lemma mkSplitDocs_get {α : Type} (d : Doc α) (texts : List (List Char))
    (i : Nat) (h : i < (mkSplitDocs d texts).length) :
    (mkSplitDocs d texts).get ⟨i, h⟩ =
      { d with
        text := texts.get ⟨i, by rwa [mkSplitDocs_length] at h⟩
        meta := some (metaSet (d.meta.getD []) "_split_id" (.int i)) } := by
  simp [mkSplitDocs, List.get_eq_getElem, List.getElem_map, List.getElem_enum]

/-- C7: for a truthy split unit, every sub-document emitted by `split` is a
copy of the input in which only `text` is replaced and
`meta["_split_id"]` is set to the zero-based emission index: the `extra`
fields are unchanged, the `_split_id` entry holds the index, every other
metadata key looks up to the same value as in the input document, and a
missing `meta` mapping is created (lookup goes through `getD []`). -/
theorem c7_split_preserves_fields {α : Type} (cfg : Config)
    (tok : List Char → List (List Char)) (d : Doc α) (u : String)
    (hu : cfg.split_by = some u) (hne : u ≠ "") (docs : List (Doc α))
    (hok : split cfg tok d = .ok docs) :
    ∀ i (h : i < docs.length),
      (docs.get ⟨i, h⟩).extra = d.extra ∧
      metaLookup ((docs.get ⟨i, h⟩).meta.getD []) "_split_id" =
        some (.int i) ∧
      ∀ k, k ≠ "_split_id" →
        metaLookup ((docs.get ⟨i, h⟩).meta.getD []) k =
          metaLookup (d.meta.getD []) k := by
  have hsplit : split cfg tok d =
      (textSplitsOf cfg tok d.text u).map (mkSplitDocs d) := by
    simp [split, hu, hne]
  rw [hsplit] at hok
  cases hts : textSplitsOf cfg tok d.text u with
  | error e =>
    rw [hts] at hok
    simp [Except.map] at hok
  | ok ts =>
    rw [hts] at hok
    simp only [Except.map, Except.ok.injEq] at hok
    subst hok
    intro i h
    rw [mkSplitDocs_get]
    refine ⟨rfl, ?_, ?_⟩
    · exact metaLookup_metaSet_self _ _ _
    · intro k hk
      exact metaLookup_metaSet_other _ _ _ _ hk

/-- A document that already carries a metadata entry. -/
def docMeta7 : Doc Unit :=
  ⟨"A B C D E F".toList, some [("src", .str ['x'])], ()⟩

/-- The sub-documents produced from `docMeta7` by the C5 configuration. -/
def docs7 : List (Doc Unit) :=
  [⟨"A B".toList, some [("src", .str ['x']), ("_split_id", .int 0)], ()⟩,
   ⟨"C D".toList, some [("src", .str ['x']), ("_split_id", .int 1)], ()⟩,
   ⟨"E F".toList, some [("src", .str ['x']), ("_split_id", .int 2)], ()⟩]

theorem c7_split_preserves_fields_witness :
    (docs7.get ⟨0, by decide⟩).extra = docMeta7.extra ∧
    metaLookup ((docs7.get ⟨0, by decide⟩).meta.getD []) "_split_id" =
      some (.int 0) ∧
    metaLookup ((docs7.get ⟨0, by decide⟩).meta.getD []) "src" =
      metaLookup (docMeta7.meta.getD []) "src" := by
  have h := c7_split_preserves_fields cfgScenario tokNone docMeta7 "word"
    rfl (by decide) docs7 rfl 0 (by decide)
  exact ⟨h.1, h.2.1, h.2.2 "src" (by decide)⟩

/-- Modelled from the words of claim C3 (and spec 4.4): a group is the
minimal prefix of the remaining sentences whose accumulated space-split
word count strictly exceeds `size`; `none` when the sentences run out
before the threshold is exceeded. -/
def splitFirstGroup :
    List (List Char) → Nat → Option (List (List Char) × List (List Char))
  | [], _ => none
  | sen :: rest, size =>
    if size < (splitOnSpace sen).length then some ([sen], rest)
    else
      match splitFirstGroup rest (size - (splitOnSpace sen).length) with
      | none => none
      | some (g, r) => some (sen :: g, r)

lemma splitFirstGroup_rest_lt :
    ∀ (sens : List (List Char)) (size : Nat) (g : List (List Char))
      (r : List (List Char)),
      splitFirstGroup sens size = some (g, r) → r.length < sens.length := by
  intro sens
  induction sens with
  | nil => intro size g r h; simp [splitFirstGroup] at h
  | cons sen rest ih =>
    intro size g r h
    unfold splitFirstGroup at h
    split at h
    · obtain ⟨rfl, rfl⟩ := Prod.mk.injEq .. ▸ (Option.some.inj h)
      simp
    · split at h
      · exact absurd h (by simp)
      · rename_i g0 r0 heq
        obtain ⟨rfl, rfl⟩ := Prod.mk.injEq .. ▸ (Option.some.inj h)
        exact Nat.lt_trans (ih _ g0 r0 heq) (by simp)

def greedyGroups (size : Nat) (sens : List (List Char)) :
    List (List Char) :=
  match _hsfg : splitFirstGroup sens size with
  | none => []
  | some (g, r) => g.flatten :: greedyGroups size r
termination_by sens.length
decreasing_by exact splitFirstGroup_rest_lt sens size g r _hsfg

lemma greedyGroups_eq_match (size : Nat) (sens : List (List Char)) :
    greedyGroups size sens =
      match splitFirstGroup sens size with
      | none => []
      | some (g, r) => g.flatten :: greedyGroups size r := by
  rw [greedyGroups]
  cases h : splitFirstGroup sens size with
  | none => simp
  | some p => simp

lemma wordNoMidGo_eq_greedy (size : Nat) (sens : List (List Char)) :
    ∀ (cur : List Char) (cnt : Nat), cnt ≤ size →
      wordNoMidGo size sens cur cnt =
        match splitFirstGroup sens (size - cnt) with
        | none => []
        | some (g, r) => (cur ++ g.flatten) :: greedyGroups size r := by
  induction sens with
  | nil =>
    intro cur cnt _
    simp [wordNoMidGo, splitFirstGroup]
  | cons sen rest ih =>
    intro cur cnt hc
    by_cases hgt : size < cnt + (splitOnSpace sen).length
    · have hlhs : wordNoMidGo size (sen :: rest) cur cnt =
          (cur ++ sen) :: wordNoMidGo size rest [] 0 := by
        simp [wordNoMidGo, hgt]
      have hfg : splitFirstGroup (sen :: rest) (size - cnt) =
          some ([sen], rest) := by
        conv_lhs => unfold splitFirstGroup
        rw [if_pos (by omega)]
      rw [hlhs, hfg, ih [] 0 (Nat.zero_le _), Nat.sub_zero]
      dsimp only
      rw [greedyGroups_eq_match size rest]
      cases h : splitFirstGroup rest size with
      | none => simp
      | some p => cases p with | mk g r => simp
    · have hlhs : wordNoMidGo size (sen :: rest) cur cnt =
          wordNoMidGo size rest (cur ++ sen)
            (cnt + (splitOnSpace sen).length) := by
        simp [wordNoMidGo, hgt]
      have hfg : splitFirstGroup (sen :: rest) (size - cnt) =
          match splitFirstGroup rest
              ((size - cnt) - (splitOnSpace sen).length) with
          | none => none
          | some (g, r) => some (sen :: g, r) := by
        conv_lhs => unfold splitFirstGroup
        rw [if_neg (by omega)]
      rw [hlhs, ih (cur ++ sen) (cnt + (splitOnSpace sen).length) (by omega),
        hfg, show (size - cnt) - (splitOnSpace sen).length =
          size - (cnt + (splitOnSpace sen).length) by omega]
      cases h : splitFirstGroup rest (size - (cnt + (splitOnSpace sen).length))
        with
      | none => simp
      | some p =>
        cases p with
        | mk g r => simp


/-- C3: with mid-sentence splitting disabled and `split_by = "word"`,
`split` emits exactly the greedy sentence groups: sentences are
concatenated into a buffer whose space-split word counts accumulate, the
buffer is emitted exactly when the count strictly exceeds `split_size`
(buffer and count resetting to empty and zero), and a final partial buffer
that never exceeds the threshold is dropped and never emitted. -/
theorem c3_no_mid_word_split_greedy {α : Type} (cfg : Config)
    (tok : List Char → List (List Char)) (d : Doc α)
    (hmid : cfg.split_mid_sentence = false)
    (hu : cfg.split_by = some "word") :
    split cfg tok d =
      .ok (mkSplitDocs d (greedyGroups cfg.split_size (tok d.text))) := by
  have hts : textSplitsOf cfg tok d.text "word" =
      .ok (wordNoMidGo cfg.split_size (tok d.text) [] 0) := by
    simp [textSplitsOf, hmid]
  have heq : wordNoMidGo cfg.split_size (tok d.text) [] 0 =
      greedyGroups cfg.split_size (tok d.text) := by
    rw [wordNoMidGo_eq_greedy cfg.split_size (tok d.text) [] 0
        (Nat.zero_le _),
      Nat.sub_zero, greedyGroups_eq_match]
    cases h : splitFirstGroup (tok d.text) cfg.split_size with
    | none => rfl
    | some p => cases p with | mk g r => simp
  simp [split, hu, hts, heq, Except.map]

/-- Three sentences with 4, 3 and 1 space-split words respectively. -/
def sents3 : List (List Char) :=
  ["One two three. ".toList, "Four five. ".toList, "Six.".toList]

/-- A sentence tokenizer stub returning `sents3`. -/
def tok3 : List Char → List (List Char) := fun _ => sents3

/-- Word splitting with mid-sentence splitting disabled, `split_size = 4`. -/
def cfg3 : Config := ⟨true, false, true, some "word", 4, none, false⟩

theorem c3_no_mid_word_split_greedy_witness :
    split cfg3 tok3 docEmpty =
      .ok (mkSplitDocs docEmpty ["One two three. Four five. ".toList]) := by
  have hGG : greedyGroups 4 sents3 =
      ["One two three. Four five. ".toList] := by
    rw [greedyGroups_eq_match,
      show splitFirstGroup sents3 4 =
        some (["One two three. ".toList, "Four five. ".toList],
          ["Six.".toList]) from by decide]
    show _ :: _ = _
    rw [greedyGroups_eq_match,
      show splitFirstGroup ["Six.".toList] 4 = none from by decide]
    decide
  have h := c3_no_mid_word_split_greedy cfg3 tok3 docEmpty rfl rfl
  rw [h]
  show Except.ok (mkSplitDocs docEmpty (greedyGroups 4 sents3)) = _
  rw [hGG]

/-- `windowed` on a one-element sequence yields exactly one window: the
element followed by `n - 1` fill values. -/
lemma windowed_singleton {α : Type} (x : α) (n step : Nat) (hn : 1 ≤ n)
    (hs : 1 ≤ step) :
    windowed [x] n step = [some x :: List.replicate (n - 1) none] := by
  match n, hn with
  | 1, _ =>
    unfold windowed
    have hcond : ¬ (0 < step ∧ step < min step 1) := by omega
    simp [windowedStep, pushMax, hcond]
  | m + 2, _ =>
    unfold windowed
    have h1 : ¬ (m + 2 - 1 = 0) := by omega
    simp [windowedStep, pushMax, h1]

/-- C10: on a document with empty text, with mid-sentence splitting enabled
and `split_by` of word or passage (and a valid size/stride configuration),
`split` returns exactly one sub-document with empty text and
`meta["_split_id"] = 0`, and no error is raised: splitting the empty
string yields the single empty slice `[""]`, which forms one padded
window whose truthy entries join to the empty string. -/
theorem c10_empty_text_single_doc {α : Type} (cfg : Config)
    (tok : List Char → List (List Char)) (d : Doc α)
    (htext : d.text = [])
    (hmid : cfg.split_mid_sentence = true)
    (hu : cfg.split_by = some "word" ∨ cfg.split_by = some "passage")
    (hsize : 1 ≤ cfg.split_size)
    (hstride : ∀ s, cfg.split_stride = some s → s ≠ 0 →
      s < cfg.split_size) :
    split cfg tok d =
      .ok [{ d with
             text := []
             meta := some (metaSet (d.meta.getD []) "_split_id"
               (.int 0)) }] := by
  have hstep : 1 ≤ stepOf cfg := by
    unfold stepOf
    cases hsd : cfg.split_stride with
    | none => exact hsize
    | some s =>
      show 1 ≤ if s = 0 then cfg.split_size else cfg.split_size - s
      by_cases h0 : s = 0
      · rw [if_pos h0]
        exact hsize
      · have := hstride s hsd h0
        rw [if_neg h0]
        omega
  have hmt : midTexts cfg [[]] = [[]] := by
    unfold midTexts
    rw [windowed_singleton ([] : List Char) cfg.split_size (stepOf cfg)
      hsize hstep]
    simp [joinSpace, List.intercalate]
  rcases hu with hu | hu
  · have hslices : splitOnSpace d.text = [[]] := by rw [htext]; rfl
    have hok : split cfg tok d = .ok (mkSplitDocs d [[]]) := by
      simp [split, hu, textSplitsOf, hmid, hslices, hmt, Except.map]
    rw [hok]
    rfl
  · have hslices : splitDoubleNL d.text = [[]] := by rw [htext]; rfl
    have hok : split cfg tok d = .ok (mkSplitDocs d [[]]) := by
      simp [split, hu, textSplitsOf, hmid, hslices, hmt, Except.map]
    rw [hok]
    rfl

theorem c10_empty_text_single_doc_witness :
    split cfgScenario tokNone docEmpty =
      .ok [{ docEmpty with
             text := []
             meta := some (metaSet (docEmpty.meta.getD []) "_split_id"
               (.int 0)) }] :=
  c10_empty_text_single_doc cfgScenario tokNone docEmpty rfl rfl
    (Or.inl rfl) (by decide) (fun _ hs _ => nomatch hs)
